import Mathlib

/-!
# Verification of the pyvibs 2-DOF modal-analysis notebook

Shallow embedding of `src/examples/vibs1.ipynb`: the model builder
(mass/stiffness matrices), the modal solver (generalized symmetric
eigendecomposition, proportional damping, poles), and the FRF synthesizer
(pole-residue partial fractions, magnitude-to-decibel conversion).

Matrices are 2×2 (the notebook is a 2-DOF model), represented by an
explicit four-entry structure; real arithmetic is over `ℝ` (exact reals in
place of floating point), and the model-builder constants over `ℚ`.
-/

/-- A 2×2 matrix `[[a, b], [c, d]]` over `α`. -/
structure Mat2 (α : Type) where
  a : α
  b : α
  c : α
  d : α
deriving DecidableEq

namespace Mat2

variable {α : Type} [Field α]

/-- Matrix product of two 2×2 matrices. -/
def mul (X Y : Mat2 α) : Mat2 α :=
  ⟨X.a * Y.a + X.b * Y.c, X.a * Y.b + X.b * Y.d,
   X.c * Y.a + X.d * Y.c, X.c * Y.b + X.d * Y.d⟩

/-- Transpose of a 2×2 matrix. -/
def transpose (X : Mat2 α) : Mat2 α := ⟨X.a, X.c, X.b, X.d⟩

/-- Scalar multiple of a 2×2 matrix. -/
def smul (x : α) (X : Mat2 α) : Mat2 α := ⟨x * X.a, x * X.b, x * X.c, x * X.d⟩

/-- Entrywise sum of two 2×2 matrices. -/
def add (X Y : Mat2 α) : Mat2 α := ⟨X.a + Y.a, X.b + Y.b, X.c + Y.c, X.d + Y.d⟩

/-- The 2×2 identity matrix. -/
def one : Mat2 α := ⟨1, 0, 0, 1⟩

/-- Diagonal 2×2 matrix with entries `x`, `y`. -/
def diag (x y : α) : Mat2 α := ⟨x, 0, 0, y⟩

/-- A matrix is symmetric when its off-diagonal entries agree. -/
def symmetric (X : Mat2 α) : Prop := X.b = X.c

/-- Action of a 2×2 matrix on a column vector. -/
def mulVec (X : Mat2 α) (v : α × α) : α × α :=
  (X.a * v.1 + X.b * v.2, X.c * v.1 + X.d * v.2)

/-- First column of a 2×2 matrix. -/
def col1 (X : Mat2 α) : α × α := (X.a, X.c)

/-- Second column of a 2×2 matrix. -/
def col2 (X : Mat2 α) : α × α := (X.b, X.d)

/-- Entry of a 2×2 matrix at row `i`, column `j`. -/
def entry (X : Mat2 α) (i j : Fin 2) : α :=
  match i, j with
  | 0, 0 => X.a
  | 0, 1 => X.b
  | 1, 0 => X.c
  | 1, 1 => X.d

omit [Field α] in
theorem ext2 {X Y : Mat2 α} (ha : X.a = Y.a) (hb : X.b = Y.b)
    (hc : X.c = Y.c) (hd : X.d = Y.d) : X = Y := by
  cases X; cases Y; simp_all

theorem mul_assoc2 (X Y Z : Mat2 α) : mul (mul X Y) Z = mul X (mul Y Z) := by
  apply ext2 <;> simp [mul] <;> ring

theorem mul_one2 (X : Mat2 α) : mul X one = X := by
  apply ext2 <;> simp [mul, one]

theorem one_mul2 (X : Mat2 α) : mul one X = X := by
  apply ext2 <;> simp [mul, one]

theorem transpose_mul2 (X Y : Mat2 α) :
    transpose (mul X Y) = mul (transpose Y) (transpose X) := by
  apply ext2 <;> simp [mul, transpose] <;> ring

omit [Field α] in
theorem transpose_transpose2 (X : Mat2 α) : transpose (transpose X) = X := by
  apply ext2 <;> simp [transpose]

/-- Any congruence `B K Bᵀ` of a symmetric `K` is symmetric. -/
theorem congr_symmetric (B K : Mat2 α) (hK : K.symmetric) :
    (mul (mul B K) (transpose B)).symmetric := by
  simp only [symmetric, mul, transpose] at hK ⊢
  rw [hK]; ring

end Mat2

/-! ## ModelBuilder (notebook cell 5)

```python
b = 1; h = 12; I = b*(h**3)/12; E = 29e6; l = 100*12; grav = 386.4
mbar = b*h*.29; mbar = mbar/grav
k1 = E*I/(l**3) * 300; k2 = E*I/l**3 * 300
M = mbar*l/2 * np.eye(2)
k = E*I/(l**3) * np.array([[12, -12], [-12, 12]])
K = k + np.eye(2)*np.array([k1,k2])
```
The cell's inline constants become parameters; the notebook's values are
instantiated in the theorems. All quantities are exact rationals. -/

/-- Second moment of area of the rectangular cross-section, `I = b*h^3/12`. -/
def secondMoment (b h : ℚ) : ℚ := b * h ^ 3 / 12

/-- Lumped mass per unit length, `mbar = b*h*density/grav`. -/
def mbarOf (b h density grav : ℚ) : ℚ := b * h * density / grav

/-- Mass matrix `M = mbar*l/2 * eye(2)`. -/
def massMatrix (b h density grav l : ℚ) : Mat2 ℚ :=
  Mat2.smul (mbarOf b h density grav * l / 2) Mat2.one

/-- Condensed beam stiffness `k = E*I/l^3 * [[12, -12], [-12, 12]]`. -/
def beamStiffness (E Imom l : ℚ) : Mat2 ℚ :=
  Mat2.smul (E * Imom / l ^ 3) ⟨12, -12, -12, 12⟩

/-- Boundary-spring stiffness `E*I/l^3 * scale`. -/
def springStiffness (E Imom l scale : ℚ) : ℚ := E * Imom / l ^ 3 * scale

/-- Stiffness matrix `K`: beam contribution plus boundary springs on the
diagonal. -/
def stiffnessMatrix (E Imom l s1 s2 : ℚ) : Mat2 ℚ :=
  Mat2.add (beamStiffness E Imom l)
    (Mat2.diag (springStiffness E Imom l s1) (springStiffness E Imom l s2))

/-- ModelBuilder: physical parameters to `(M, K)`. -/
def modelBuilder (b h E l grav density s1 s2 : ℚ) : Mat2 ℚ × Mat2 ℚ :=
  (massMatrix b h density grav l, stiffnessMatrix E (secondMoment b h) l s1 s2)

/-- C3. For `b=1, h=12, E=29e6, l=1200, grav=386.4, density=0.29` (spring
scale 300 as in the notebook), the ModelBuilder yields a diagonal mass matrix
with equal entries `≈ diag(5.404, 5.404)` and `K ≈ [[754, -29], [-29, 754]]`,
both within `1e-2` absolute tolerance, and the off-boundary (beam) stiffness
term equals `E*I/l^3*12`. -/
theorem modelBuilder_concrete :
    ((modelBuilder 1 12 29000000 1200 (3864/10) (29/100) 300 300).1.b = 0 ∧
     (modelBuilder 1 12 29000000 1200 (3864/10) (29/100) 300 300).1.c = 0 ∧
     (modelBuilder 1 12 29000000 1200 (3864/10) (29/100) 300 300).1.a =
       (modelBuilder 1 12 29000000 1200 (3864/10) (29/100) 300 300).1.d) ∧
    |(modelBuilder 1 12 29000000 1200 (3864/10) (29/100) 300 300).1.a -
      5404/1000| ≤ 1/100 ∧
    |(modelBuilder 1 12 29000000 1200 (3864/10) (29/100) 300 300).1.d -
      5404/1000| ≤ 1/100 ∧
    |(modelBuilder 1 12 29000000 1200 (3864/10) (29/100) 300 300).2.a -
      754| ≤ 1/100 ∧
    |(modelBuilder 1 12 29000000 1200 (3864/10) (29/100) 300 300).2.b -
      (-29)| ≤ 1/100 ∧
    |(modelBuilder 1 12 29000000 1200 (3864/10) (29/100) 300 300).2.c -
      (-29)| ≤ 1/100 ∧
    |(modelBuilder 1 12 29000000 1200 (3864/10) (29/100) 300 300).2.d -
      754| ≤ 1/100 ∧
    (beamStiffness 29000000 (secondMoment 1 12) 1200).a =
      29000000 * secondMoment 1 12 / 1200 ^ 3 * 12 := by
  norm_num [modelBuilder, massMatrix, stiffnessMatrix, beamStiffness,
    springStiffness, secondMoment, mbarOf, Mat2.smul, Mat2.add, Mat2.diag,
    Mat2.one, abs_le]

/-! ## ModalSolver (notebook cell 7)

```python
d, v = la.eigh(K, M)
```
`scipy.linalg.eigh` itself is library code, not part of this repository.
The definitions below model it from the spec (§4.2): a Cholesky-based
reduction of the symmetric generalized pencil `(K, M)` to a standard
symmetric 2×2 eigenproblem, eigenvalues ascending, eigenvectors
mass-normalized. -/

/-- A symmetric 2×2 real matrix is positive-definite (Sylvester's
criterion: both leading principal minors positive). -/
def PosDef2 (M : Mat2 ℝ) : Prop :=
  M.symmetric ∧ 0 < M.a ∧ 0 < M.a * M.d - M.b * M.c

noncomputable instance (M : Mat2 ℝ) : Decidable (PosDef2 M) := by
  unfold PosDef2 Mat2.symmetric; infer_instance

/-- Cholesky factor entry `L₀₀ = sqrt M₀₀`. -/
noncomputable def cholS (M : Mat2 ℝ) : ℝ := Real.sqrt M.a

/-- Cholesky factor entry `L₁₀ = M₁₀ / L₀₀`. -/
noncomputable def cholT (M : Mat2 ℝ) : ℝ := M.b / cholS M

/-- Cholesky factor entry `L₁₁ = sqrt (M₁₁ - L₁₀²)`. -/
noncomputable def cholU (M : Mat2 ℝ) : ℝ := Real.sqrt (M.d - cholT M ^ 2)

/-- Lower-triangular Cholesky factor `L` with `L Lᵀ = M`. -/
noncomputable def cholL (M : Mat2 ℝ) : Mat2 ℝ := ⟨cholS M, 0, cholT M, cholU M⟩

/-- Inverse of the Cholesky factor. -/
noncomputable def cholLinv (M : Mat2 ℝ) : Mat2 ℝ :=
  ⟨1 / cholS M, 0, -cholT M / (cholS M * cholU M), 1 / cholU M⟩

/-- Reduced standard symmetric matrix `C = L⁻¹ K L⁻ᵀ`. -/
noncomputable def Cred (M K : Mat2 ℝ) : Mat2 ℝ :=
  Mat2.mul (Mat2.mul (cholLinv M) K) (Mat2.transpose (cholLinv M))

/-- Entry `C₀₀` of the reduced matrix. -/
noncomputable def pC (M K : Mat2 ℝ) : ℝ := (Cred M K).a

/-- Entry `C₀₁` of the reduced matrix. -/
noncomputable def qC (M K : Mat2 ℝ) : ℝ := (Cred M K).b

/-- Entry `C₁₁` of the reduced matrix. -/
noncomputable def rC (M K : Mat2 ℝ) : ℝ := (Cred M K).d

/-- Discriminant radius of the reduced 2×2 symmetric eigenproblem. -/
noncomputable def deltaC (M K : Mat2 ℝ) : ℝ :=
  Real.sqrt (((pC M K - rC M K) / 2) ^ 2 + qC M K ^ 2)

/-- Smaller eigenvalue (ascending order). -/
noncomputable def ev1 (M K : Mat2 ℝ) : ℝ := (pC M K + rC M K) / 2 - deltaC M K

/-- Larger eigenvalue (ascending order). -/
noncomputable def ev2 (M K : Mat2 ℝ) : ℝ := (pC M K + rC M K) / 2 + deltaC M K

/-- Normalizer of the first reduced eigenvector. -/
noncomputable def nrm1 (M K : Mat2 ℝ) : ℝ :=
  Real.sqrt (qC M K ^ 2 + (ev1 M K - pC M K) ^ 2)

/-- Normalizer of the second reduced eigenvector. -/
noncomputable def nrm2 (M K : Mat2 ℝ) : ℝ :=
  Real.sqrt (qC M K ^ 2 + (ev2 M K - pC M K) ^ 2)

/-- Orthonormal eigenvector matrix of the reduced problem: identity (or a
column swap) when `C` is already diagonal, otherwise the normalized columns
`(q, λᵢ - p)`. -/
noncomputable def Umat (M K : Mat2 ℝ) : Mat2 ℝ :=
  if qC M K = 0 then (if pC M K ≤ rC M K then Mat2.one else ⟨0, 1, 1, 0⟩)
  else ⟨qC M K / nrm1 M K, qC M K / nrm2 M K,
        (ev1 M K - pC M K) / nrm1 M K, (ev2 M K - pC M K) / nrm2 M K⟩

/-- Mass-normalized generalized eigenvectors `v = L⁻ᵀ U`. -/
noncomputable def vmat (M K : Mat2 ℝ) : Mat2 ℝ :=
  Mat2.mul (Mat2.transpose (cholLinv M)) (Umat M K)

/-- Modelled from the spec: `la.eigh(K, M)` — generalized symmetric
eigendecomposition returning ascending eigenvalues and the mass-normalized
eigenvector matrix (scipy's implementation is not part of this repository). -/
noncomputable def eigh (K M : Mat2 ℝ) : (ℝ × ℝ) × Mat2 ℝ :=
  ((ev1 M K, ev2 M K), vmat M K)

theorem cholS_pos {M : Mat2 ℝ} (hM : PosDef2 M) : 0 < cholS M :=
  Real.sqrt_pos.mpr hM.2.1

theorem cholS_sq {M : Mat2 ℝ} (hM : PosDef2 M) : cholS M ^ 2 = M.a :=
  Real.sq_sqrt hM.2.1.le

theorem cholT_sq_lt {M : Mat2 ℝ} (hM : PosDef2 M) : 0 < M.d - cholT M ^ 2 := by
  have hb : M.b = M.c := hM.1
  have ha : 0 < M.a := hM.2.1
  have hdet : 0 < M.a * M.d - M.b * M.c := hM.2.2
  have ht : cholT M ^ 2 = M.b ^ 2 / M.a := by
    rw [cholT, div_pow, cholS_sq hM]
  rw [← hb] at hdet
  rw [ht, sub_pos, div_lt_iff₀ ha]
  nlinarith [hdet]

theorem cholU_pos {M : Mat2 ℝ} (hM : PosDef2 M) : 0 < cholU M :=
  Real.sqrt_pos.mpr (cholT_sq_lt hM)

theorem cholU_sq {M : Mat2 ℝ} (hM : PosDef2 M) :
    cholU M ^ 2 = M.d - cholT M ^ 2 :=
  Real.sq_sqrt (cholT_sq_lt hM).le

theorem cholL_mul_transpose {M : Mat2 ℝ} (hM : PosDef2 M) :
    Mat2.mul (cholL M) (Mat2.transpose (cholL M)) = M := by
  have hs := (cholS_pos hM).ne'
  have hs2 := cholS_sq hM
  have hu2 := cholU_sq hM
  have hbc : M.b = M.c := hM.1
  refine Mat2.ext2 ?_ ?_ ?_ ?_ <;>
    simp only [Mat2.mul, Mat2.transpose, cholL]
  · linear_combination hs2
  · rw [cholT]; field_simp
  · rw [cholT, ← hbc]; field_simp
  · linear_combination hu2

theorem cholLinv_mul_cholL {M : Mat2 ℝ} (hM : PosDef2 M) :
    Mat2.mul (cholLinv M) (cholL M) = Mat2.one := by
  have hs := (cholS_pos hM).ne'
  have hu := (cholU_pos hM).ne'
  refine Mat2.ext2 ?_ ?_ ?_ ?_ <;>
    simp only [Mat2.mul, Mat2.one, cholLinv, cholL] <;>
    field_simp
  ring

theorem cholL_mul_cholLinv {M : Mat2 ℝ} (hM : PosDef2 M) :
    Mat2.mul (cholL M) (cholLinv M) = Mat2.one := by
  have hs := (cholS_pos hM).ne'
  have hu := (cholU_pos hM).ne'
  refine Mat2.ext2 ?_ ?_ ?_ ?_ <;>
    simp only [Mat2.mul, Mat2.one, cholLinv, cholL] <;>
    field_simp
  ring

theorem Cred_c {M K : Mat2 ℝ} (hK : K.symmetric) : (Cred M K).c = qC M K :=
  (Mat2.congr_symmetric (cholLinv M) K hK).symm

theorem Cred_entries {M K : Mat2 ℝ} (hK : K.symmetric) :
    Cred M K = ⟨pC M K, qC M K, qC M K, rC M K⟩ :=
  Mat2.ext2 rfl rfl (Cred_c hK) rfl

theorem deltaC_sq (M K : Mat2 ℝ) :
    deltaC M K ^ 2 = ((pC M K - rC M K) / 2) ^ 2 + qC M K ^ 2 :=
  Real.sq_sqrt (by positivity)

theorem nrm1_sq (M K : Mat2 ℝ) :
    nrm1 M K ^ 2 = qC M K ^ 2 + (ev1 M K - pC M K) ^ 2 :=
  Real.sq_sqrt (by positivity)

theorem nrm2_sq (M K : Mat2 ℝ) :
    nrm2 M K ^ 2 = qC M K ^ 2 + (ev2 M K - pC M K) ^ 2 :=
  Real.sq_sqrt (by positivity)

theorem nrm1_pos {M K : Mat2 ℝ} (hq : qC M K ≠ 0) : 0 < nrm1 M K := by
  have h2 : 0 < qC M K ^ 2 := pow_two_pos_of_ne_zero hq
  exact Real.sqrt_pos.mpr (by nlinarith [sq_nonneg (ev1 M K - pC M K)])

theorem nrm2_pos {M K : Mat2 ℝ} (hq : qC M K ≠ 0) : 0 < nrm2 M K := by
  have h2 : 0 < qC M K ^ 2 := pow_two_pos_of_ne_zero hq
  exact Real.sqrt_pos.mpr (by nlinarith [sq_nonneg (ev2 M K - pC M K)])

/-- The characteristic equation of the reduced problem at the smaller
eigenvalue. -/
theorem charpoly1 (M K : Mat2 ℝ) :
    ev1 M K ^ 2 - (pC M K + rC M K) * ev1 M K +
      (pC M K * rC M K - qC M K ^ 2) = 0 := by
  have hd := deltaC_sq M K
  unfold ev1
  linear_combination hd

/-- The characteristic equation of the reduced problem at the larger
eigenvalue. -/
theorem charpoly2 (M K : Mat2 ℝ) :
    ev2 M K ^ 2 - (pC M K + rC M K) * ev2 M K +
      (pC M K * rC M K - qC M K ^ 2) = 0 := by
  have hd := deltaC_sq M K
  unfold ev2
  linear_combination hd

theorem ev_sum (M K : Mat2 ℝ) : ev1 M K + ev2 M K = pC M K + rC M K := by
  unfold ev1 ev2; ring

theorem ev_prod (M K : Mat2 ℝ) :
    ev1 M K * ev2 M K = pC M K * rC M K - qC M K ^ 2 := by
  have hd := deltaC_sq M K
  unfold ev1 ev2
  linear_combination -hd

/-- The reduced eigenvector matrix diagonalizes `C`: `C U = U diag(λ₁, λ₂)`. -/
theorem Cred_mul_U {M K : Mat2 ℝ} (hK : K.symmetric) :
    Mat2.mul (Cred M K) (Umat M K) =
      Mat2.mul (Umat M K) (Mat2.diag (ev1 M K) (ev2 M K)) := by
  rw [Cred_entries hK]
  by_cases hq : qC M K = 0
  · have hδ : deltaC M K = |pC M K - rC M K| / 2 := by
      unfold deltaC
      rw [hq]
      rw [show ((pC M K - rC M K) / 2) ^ 2 + (0:ℝ) ^ 2 =
            ((pC M K - rC M K) / 2) ^ 2 by ring]
      rw [Real.sqrt_sq_eq_abs, abs_div]
      norm_num
    by_cases hpr : pC M K ≤ rC M K
    · have habs : |pC M K - rC M K| = rC M K - pC M K := by
        rw [abs_of_nonpos (by linarith)]; ring
      have h1 : ev1 M K = pC M K := by unfold ev1; rw [hδ, habs]; ring
      have h2 : ev2 M K = rC M K := by unfold ev2; rw [hδ, habs]; ring
      rw [Umat, if_pos hq, if_pos hpr, h1, h2, hq]
      refine Mat2.ext2 ?_ ?_ ?_ ?_ <;> simp [Mat2.mul, Mat2.one, Mat2.diag]
    · have habs : |pC M K - rC M K| = pC M K - rC M K := by
        rw [abs_of_nonneg (by linarith [not_le.mp hpr])]
      have h1 : ev1 M K = rC M K := by unfold ev1; rw [hδ, habs]; ring
      have h2 : ev2 M K = pC M K := by unfold ev2; rw [hδ, habs]; ring
      rw [Umat, if_pos hq, if_neg hpr, h1, h2, hq]
      refine Mat2.ext2 ?_ ?_ ?_ ?_ <;> simp [Mat2.mul, Mat2.diag]
  · have hn1 := (nrm1_pos (M := M) (K := K) hq).ne'
    have hn2 := (nrm2_pos (M := M) (K := K) hq).ne'
    have hc1 := charpoly1 M K
    have hc2 := charpoly2 M K
    rw [Umat, if_neg hq]
    refine Mat2.ext2 ?_ ?_ ?_ ?_ <;> simp only [Mat2.mul, Mat2.diag] <;>
      field_simp
    · ring
    · ring
    · linear_combination (-1 : ℝ) * hc1
    · linear_combination (-1 : ℝ) * hc2

/-- The reduced eigenvector matrix is orthonormal: `Uᵀ U = I`. -/
theorem U_orthonormal (M K : Mat2 ℝ) :
    Mat2.mul (Mat2.transpose (Umat M K)) (Umat M K) = Mat2.one := by
  by_cases hq : qC M K = 0
  · rw [Umat, if_pos hq]
    by_cases hpr : pC M K ≤ rC M K
    · rw [if_pos hpr]
      refine Mat2.ext2 ?_ ?_ ?_ ?_ <;>
        simp [Mat2.mul, Mat2.one, Mat2.transpose]
    · rw [if_neg hpr]
      refine Mat2.ext2 ?_ ?_ ?_ ?_ <;>
        simp [Mat2.mul, Mat2.one, Mat2.transpose]
  · have hn1 := (nrm1_pos (M := M) (K := K) hq).ne'
    have hn2 := (nrm2_pos (M := M) (K := K) hq).ne'
    have hs1 := nrm1_sq M K
    have hs2 := nrm2_sq M K
    have hsum := ev_sum M K
    have hprod := ev_prod M K
    rw [Umat, if_neg hq]
    refine Mat2.ext2 ?_ ?_ ?_ ?_ <;>
      simp only [Mat2.mul, Mat2.one, Mat2.transpose] <;> field_simp
    · linear_combination (-1 : ℝ) * hs1
    · linear_combination hprod - pC M K * hsum
    · linear_combination hprod - pC M K * hsum
    · linear_combination (-1 : ℝ) * hs2

theorem mul_cancel_left {X Y Z : Mat2 ℝ} (h : Mat2.mul X Y = Mat2.one) :
    Mat2.mul X (Mat2.mul Y Z) = Z := by
  rw [← Mat2.mul_assoc2, h, Mat2.one_mul2]

theorem cholLt_mul_cholLinvT {M : Mat2 ℝ} (hM : PosDef2 M) :
    Mat2.mul (Mat2.transpose (cholL M)) (Mat2.transpose (cholLinv M)) =
      Mat2.one := by
  rw [← Mat2.transpose_mul2, cholLinv_mul_cholL hM]
  rfl

/-- Generic cancellation step: from `C U = U D` with `C = Li K Liᵀ` and
`L Li = I`, `Lᵀ Liᵀ = I`, derive the generalized eigen relation for
`v = Liᵀ U` against the reassembled mass matrix `L Lᵀ`. -/
theorem gen_matrix_relation (K L Li U D : Mat2 ℝ)
    (hLLi : Mat2.mul L Li = Mat2.one)
    (hLtLit : Mat2.mul (Mat2.transpose L) (Mat2.transpose Li) = Mat2.one)
    (hCU : Mat2.mul (Mat2.mul (Mat2.mul Li K) (Mat2.transpose Li)) U =
      Mat2.mul U D) :
    Mat2.mul K (Mat2.mul (Mat2.transpose Li) U) =
      Mat2.mul (Mat2.mul (Mat2.mul L (Mat2.transpose L))
        (Mat2.mul (Mat2.transpose Li) U)) D := by
  have e1 : Mat2.mul L (Mat2.mul (Mat2.mul (Mat2.mul Li K)
      (Mat2.transpose Li)) U) =
      Mat2.mul K (Mat2.mul (Mat2.transpose Li) U) := by
    simp only [Mat2.mul_assoc2]
    rw [mul_cancel_left hLLi]
  have e2 : Mat2.mul L (Mat2.mul U D) =
      Mat2.mul (Mat2.mul (Mat2.mul L (Mat2.transpose L))
        (Mat2.mul (Mat2.transpose Li) U)) D := by
    simp only [Mat2.mul_assoc2]
    rw [mul_cancel_left hLtLit]
  rw [← e1, hCU, e2]

/-- Generic cancellation step for mass normalization: `(Liᵀ U)ᵀ (L Lᵀ)
(Liᵀ U) = Uᵀ U`. -/
theorem gen_mass_normalized (L Li U : Mat2 ℝ)
    (hLiL : Mat2.mul Li L = Mat2.one)
    (hLtLit : Mat2.mul (Mat2.transpose L) (Mat2.transpose Li) = Mat2.one)
    (hU : Mat2.mul (Mat2.transpose U) U = Mat2.one) :
    Mat2.mul (Mat2.mul (Mat2.transpose (Mat2.mul (Mat2.transpose Li) U))
      (Mat2.mul L (Mat2.transpose L))) (Mat2.mul (Mat2.transpose Li) U) =
      Mat2.one := by
  rw [Mat2.transpose_mul2, Mat2.transpose_transpose2]
  simp only [Mat2.mul_assoc2]
  rw [mul_cancel_left hLiL, mul_cancel_left hLtLit]
  exact hU

/-- The generalized eigenvalue relation in matrix form:
`K v = M v diag(d₁, d₂)`. -/
theorem eigh_matrix_relation {M K : Mat2 ℝ} (hM : PosDef2 M)
    (hK : K.symmetric) :
    Mat2.mul K (vmat M K) =
      Mat2.mul (Mat2.mul M (vmat M K)) (Mat2.diag (ev1 M K) (ev2 M K)) := by
  have h := gen_matrix_relation K (cholL M) (cholLinv M) (Umat M K)
    (Mat2.diag (ev1 M K) (ev2 M K)) (cholL_mul_cholLinv hM)
    (cholLt_mul_cholLinvT hM) (Cred_mul_U (M := M) hK)
  rw [cholL_mul_transpose hM] at h
  exact h

/-- Mass normalization in matrix form: `vᵀ M v = I`. -/
theorem eigh_mass_normalized_matrix {M K : Mat2 ℝ} (hM : PosDef2 M) :
    Mat2.mul (Mat2.mul (Mat2.transpose (vmat M K)) M) (vmat M K) =
      Mat2.one := by
  have h := gen_mass_normalized (cholL M) (cholLinv M) (Umat M K)
    (cholLinv_mul_cholL hM) (cholLt_mul_cholLinvT hM) (U_orthonormal M K)
  rw [cholL_mul_transpose hM] at h
  exact h

/-- Scalar multiple of a column vector. -/
def vecSmul (x : ℝ) (v : ℝ × ℝ) : ℝ × ℝ := (x * v.1, x * v.2)

theorem col1_mul (X Y : Mat2 ℝ) :
    (Mat2.mul X Y).col1 = Mat2.mulVec X Y.col1 := by
  simp [Mat2.mul, Mat2.col1, Mat2.mulVec]

theorem col2_mul (X Y : Mat2 ℝ) :
    (Mat2.mul X Y).col2 = Mat2.mulVec X Y.col2 := by
  simp [Mat2.mul, Mat2.col2, Mat2.mulVec]

theorem col1_mul_diag (Z : Mat2 ℝ) (x y : ℝ) :
    (Mat2.mul Z (Mat2.diag x y)).col1 = vecSmul x Z.col1 := by
  simp [Mat2.mul, Mat2.diag, Mat2.col1, vecSmul, Prod.ext_iff]
  constructor <;> ring

theorem col2_mul_diag (Z : Mat2 ℝ) (x y : ℝ) :
    (Mat2.mul Z (Mat2.diag x y)).col2 = vecSmul y Z.col2 := by
  simp [Mat2.mul, Mat2.diag, Mat2.col2, vecSmul, Prod.ext_iff]
  constructor <;> ring

/-- Decoupled (modal) mass matrix `Mr = vᵀ M v` (notebook cell 7). -/
noncomputable def modalMassOf (M v : Mat2 ℝ) : Mat2 ℝ :=
  Mat2.mul (Mat2.mul (Mat2.transpose v) M) v

/-- Decoupled (modal) stiffness matrix `Kr = vᵀ K v` (notebook cell 7). -/
noncomputable def modalStiffnessOf (K v : Mat2 ℝ) : Mat2 ℝ :=
  Mat2.mul (Mat2.mul (Mat2.transpose v) K) v

/-- C1. For every symmetric positive-definite `M` and symmetric `K`, the
eigenvalues `d` and eigenvectors `v` produced by the generalized symmetric
eigendecomposition satisfy `K·v = M·v·diag(d)`, columnwise for every mode
(exactly, in real arithmetic, hence within any solver tolerance). -/
theorem eigh_eigen_relation {M K : Mat2 ℝ} (hM : PosDef2 M)
    (hK : K.symmetric) :
    Mat2.mulVec K (eigh K M).2.col1 =
      vecSmul (eigh K M).1.1 (Mat2.mulVec M (eigh K M).2.col1) ∧
    Mat2.mulVec K (eigh K M).2.col2 =
      vecSmul (eigh K M).1.2 (Mat2.mulVec M (eigh K M).2.col2) ∧
    Mat2.mul K (eigh K M).2 =
      Mat2.mul (Mat2.mul M (eigh K M).2)
        (Mat2.diag (eigh K M).1.1 (eigh K M).1.2) := by
  have h := eigh_matrix_relation hM hK
  refine ⟨?_, ?_, h⟩
  · have := congrArg Mat2.col1 h
    rwa [col1_mul, col1_mul_diag, col1_mul] at this
  · have := congrArg Mat2.col2 h
    rwa [col2_mul, col2_mul_diag, col2_mul] at this

/-- Witness for C1 at the concrete pair `M = I`, `K = [[2,1],[1,2]]`. -/
theorem eigh_eigen_relation_witness :
    PosDef2 ⟨1, 0, 0, 1⟩ ∧ (Mat2.mk 2 1 1 2 : Mat2 ℝ).symmetric ∧
    (Mat2.mulVec ⟨2, 1, 1, 2⟩ (eigh ⟨2, 1, 1, 2⟩ ⟨1, 0, 0, 1⟩).2.col1 =
      vecSmul (eigh ⟨2, 1, 1, 2⟩ ⟨1, 0, 0, 1⟩).1.1
        (Mat2.mulVec ⟨1, 0, 0, 1⟩ (eigh ⟨2, 1, 1, 2⟩ ⟨1, 0, 0, 1⟩).2.col1) ∧
    Mat2.mulVec ⟨2, 1, 1, 2⟩ (eigh ⟨2, 1, 1, 2⟩ ⟨1, 0, 0, 1⟩).2.col2 =
      vecSmul (eigh ⟨2, 1, 1, 2⟩ ⟨1, 0, 0, 1⟩).1.2
        (Mat2.mulVec ⟨1, 0, 0, 1⟩ (eigh ⟨2, 1, 1, 2⟩ ⟨1, 0, 0, 1⟩).2.col2) ∧
    Mat2.mul ⟨2, 1, 1, 2⟩ (eigh ⟨2, 1, 1, 2⟩ ⟨1, 0, 0, 1⟩).2 =
      Mat2.mul (Mat2.mul ⟨1, 0, 0, 1⟩ (eigh ⟨2, 1, 1, 2⟩ ⟨1, 0, 0, 1⟩).2)
        (Mat2.diag (eigh ⟨2, 1, 1, 2⟩ ⟨1, 0, 0, 1⟩).1.1
          (eigh ⟨2, 1, 1, 2⟩ ⟨1, 0, 0, 1⟩).1.2)) :=
  ⟨by norm_num [PosDef2, Mat2.symmetric], by norm_num [Mat2.symmetric],
    eigh_eigen_relation (by norm_num [PosDef2, Mat2.symmetric])
      (by norm_num [Mat2.symmetric])⟩

/-- C2. For every symmetric positive-definite `M` and symmetric `K`, the
eigenvector matrix is mass-normalized: `vᵀ M v` (the decoupled modal mass
matrix `Mr`) equals the identity exactly, hence within `1e-10`. -/
theorem eigh_mass_normalization {M K : Mat2 ℝ} (hM : PosDef2 M)
    (hK : K.symmetric) :
    modalMassOf M (eigh K M).2 = Mat2.one := by
  have _ := hK
  exact eigh_mass_normalized_matrix hM

/-- Witness for C2 at the concrete pair `M = I`, `K = [[2,1],[1,2]]`. -/
theorem eigh_mass_normalization_witness :
    PosDef2 ⟨1, 0, 0, 1⟩ ∧ (Mat2.mk 2 1 1 2 : Mat2 ℝ).symmetric ∧
    modalMassOf ⟨1, 0, 0, 1⟩ (eigh ⟨2, 1, 1, 2⟩ ⟨1, 0, 0, 1⟩).2 = Mat2.one :=
  ⟨by norm_num [PosDef2, Mat2.symmetric], by norm_num [Mat2.symmetric],
    eigh_mass_normalization (by norm_num [PosDef2, Mat2.symmetric])
      (by norm_num [Mat2.symmetric])⟩

/-- Error signalled when the mass matrix is not positive-definite. -/
inductive ModalError where
  | singularMassMatrix
deriving DecidableEq

/-- Modelled from the spec: the ModalSolver entry point guards the
decomposition — if `M` is not positive-definite it signals
`SingularMassMatrixError` instead of decomposing (scipy's `eigh` raises
`LinAlgError` from the failed Cholesky factorization; the spec names the
failure `SingularMassMatrixError`). -/
noncomputable def eighChecked (K M : Mat2 ℝ) :
    Except ModalError ((ℝ × ℝ) × Mat2 ℝ) :=
  if PosDef2 M then Except.ok (eigh K M)
  else Except.error ModalError.singularMassMatrix

/-- C9. For every mass matrix `M` that is not positive-definite, the solver
signals `SingularMassMatrixError` rather than producing a decomposition. -/
theorem eighChecked_not_posdef {M : Mat2 ℝ} (K : Mat2 ℝ)
    (hM : ¬ PosDef2 M) :
    eighChecked K M = Except.error ModalError.singularMassMatrix := by
  simp [eighChecked, hM]

/-- Witness for C9 at the concrete singular `M = 0`. -/
theorem eighChecked_not_posdef_witness :
    ¬ PosDef2 ⟨0, 0, 0, 0⟩ ∧
    eighChecked ⟨2, 1, 1, 2⟩ ⟨0, 0, 0, 0⟩ =
      Except.error ModalError.singularMassMatrix :=
  ⟨by norm_num [PosDef2], eighChecked_not_posdef _ (by norm_num [PosDef2])⟩

/-! ## Proportional damping and poles (notebook cell 7, continued)

```python
w = np.sqrt(d)
dampr = .05
dampf = -dampr*w
wn = np.sqrt(w**2 + dampf**2)
roots = dampf + 1j*wn
```
-/

/-- Undamped natural frequency `ω = sqrt d`. -/
noncomputable def omegaOf (d : ℝ) : ℝ := Real.sqrt d

/-- Damping factor `dampf = -ζ·ω`. -/
noncomputable def dampfOf (ζ d : ℝ) : ℝ := -ζ * omegaOf d

/-- Damped natural frequency `wn = sqrt (ω² + dampf²)`. -/
noncomputable def wnOf (ζ d : ℝ) : ℝ :=
  Real.sqrt (omegaOf d ^ 2 + dampfOf ζ d ^ 2)

/-- Positive pole `pole = dampf + i·wn`. -/
noncomputable def poleOf (ζ d : ℝ) : ℂ :=
  (dampfOf ζ d : ℂ) + Complex.I * (wnOf ζ d : ℂ)

/-- Two-sided square-root bracketing from squared bounds. -/
theorem sqrt_bounds {x lo hi : ℝ} (hlo : 0 ≤ lo) (h1 : lo ^ 2 ≤ x)
    (h2 : x ≤ hi ^ 2) (hhi : 0 ≤ hi) :
    lo ≤ Real.sqrt x ∧ Real.sqrt x ≤ hi := by
  constructor
  · calc lo = Real.sqrt (lo ^ 2) := (Real.sqrt_sq hlo).symm
      _ ≤ Real.sqrt x := Real.sqrt_le_sqrt h1
  · calc Real.sqrt x ≤ Real.sqrt (hi ^ 2) := Real.sqrt_le_sqrt h2
      _ = hi := Real.sqrt_sq hhi

/-- `sqrt x` lies within `ε` of `a` when `x` lies between `(a-ε)²` and
`(a+ε)²`. -/
theorem sqrt_near {x a ε : ℝ} (ha : 0 ≤ a - ε) (h1 : (a - ε) ^ 2 ≤ x)
    (h2 : x ≤ (a + ε) ^ 2) (hhi : 0 ≤ a + ε) :
    |Real.sqrt x - a| ≤ ε := by
  have h := sqrt_bounds ha h1 h2 hhi
  rw [abs_le]
  constructor <;> linarith [h.1, h.2]

theorem wnOf_eq {d : ℝ} (ζ : ℝ) (hd : 0 ≤ d) :
    wnOf ζ d = Real.sqrt (d + ζ ^ 2 * d) := by
  unfold wnOf dampfOf omegaOf
  congr 1
  have h : (-ζ * Real.sqrt d) ^ 2 = ζ ^ 2 * Real.sqrt d ^ 2 := by ring
  rw [h, Real.sq_sqrt hd]

/-- C4. The solver computes `dampf = -ζ·ω`, `wn = sqrt(ω² + dampf²)` and
`pole = dampf + i·wn` with `ω = sqrt d`; at `d = [134.1667, 144.9]` and
`ζ = 0.05` this gives `ω ≈ [11.583, 12.038]`, `dampf ≈ [-0.5791, -0.6019]`
and `wn ≈ [11.598, 12.053]` (within `1e-2`). -/
theorem damping_pipeline :
    (∀ ζ d : ℝ, omegaOf d = Real.sqrt d ∧ dampfOf ζ d = -ζ * omegaOf d ∧
      wnOf ζ d = Real.sqrt (omegaOf d ^ 2 + dampfOf ζ d ^ 2) ∧
      poleOf ζ d = (dampfOf ζ d : ℂ) + Complex.I * (wnOf ζ d : ℂ)) ∧
    |omegaOf 134.1667 - 11.583| ≤ 1/100 ∧
    |omegaOf 144.9 - 12.038| ≤ 1/100 ∧
    |dampfOf 0.05 134.1667 - (-0.5791)| ≤ 1/100 ∧
    |dampfOf 0.05 144.9 - (-0.6019)| ≤ 1/100 ∧
    |wnOf 0.05 134.1667 - 11.598| ≤ 1/100 ∧
    |wnOf 0.05 144.9 - 12.053| ≤ 1/100 := by
  have hb1 : (11.573 : ℝ) ≤ Real.sqrt 134.1667 ∧
      Real.sqrt 134.1667 ≤ 11.593 :=
    sqrt_bounds (by norm_num) (by norm_num) (by norm_num) (by norm_num)
  have hb2 : (12.028 : ℝ) ≤ Real.sqrt 144.9 ∧ Real.sqrt 144.9 ≤ 12.048 :=
    sqrt_bounds (by norm_num) (by norm_num) (by norm_num) (by norm_num)
  refine ⟨fun ζ d => ⟨rfl, rfl, rfl, rfl⟩, ?_, ?_, ?_, ?_, ?_, ?_⟩
  · exact sqrt_near (by norm_num) (by norm_num) (by norm_num) (by norm_num)
  · exact sqrt_near (by norm_num) (by norm_num) (by norm_num) (by norm_num)
  · unfold dampfOf omegaOf
    rw [abs_le]; constructor <;> nlinarith [hb1.1, hb1.2]
  · unfold dampfOf omegaOf
    rw [abs_le]; constructor <;> nlinarith [hb2.1, hb2.2]
  · rw [wnOf_eq 0.05 (by norm_num)]
    exact sqrt_near (by norm_num) (by norm_num) (by norm_num) (by norm_num)
  · rw [wnOf_eq 0.05 (by norm_num)]
    exact sqrt_near (by norm_num) (by norm_num) (by norm_num) (by norm_num)

/-! ## FRFSynthesizer (notebook cells 11 and 13)

```python
qr = 1/(2j*np.diag(Mr)*wn)
A = [qr[mode]*np.outer(v[:,mode],v[:,mode]) for mode in np.arange(ne)]

def frf_build_sdof(a,r,f):
    h = a/(1j*f-r) + np.conj(a)/(1j*f-np.conj(r))
    return h

def mag2db(x):
    return 20*np.log10(x)
```
-/

/-- One partial-fraction term of the FRF at frequency `f`:
`a/(i·f - r) + conj(a)/(i·f - conj(r))`. -/
noncomputable def sdofTerm (a r : ℂ) (f : ℝ) : ℂ :=
  a / (Complex.I * f - r) + (starRingEnd ℂ) a / (Complex.I * f - (starRingEnd ℂ) r)

/-- `frf_build_sdof`: evaluate the single-mode term along a frequency
sweep. -/
noncomputable def frf_build_sdof (a r : ℂ) (f : List ℝ) : List ℂ :=
  f.map (sdofTerm a r)

/-- Modal scaling `qr = 1/(2i·Mr·wn)`. -/
noncomputable def qrOf (mr wn : ℝ) : ℂ := 1 / (2 * Complex.I * mr * wn)

/-- Outer product `outer(v, v)` of a real mode shape, as a complex matrix. -/
noncomputable def outerOf (v : ℝ × ℝ) : Mat2 ℂ :=
  ⟨((v.1 * v.1 : ℝ) : ℂ), ((v.1 * v.2 : ℝ) : ℂ),
   ((v.2 * v.1 : ℝ) : ℂ), ((v.2 * v.2 : ℝ) : ℂ)⟩

/-- Scaled residue matrix `A[mode] = qr·outer(v_mode, v_mode)`. -/
noncomputable def residueA (q : ℂ) (v : ℝ × ℝ) : Mat2 ℂ :=
  Mat2.smul q (outerOf v)

/-- Modelled from the spec: the multi-mode FRF
`H(f_k) = Σ_mode sdofTerm (A[mode][iout, iin]) (pole[mode]) f_k` — the
notebook's loop over modes is dead code (`for mode in np.arange(ne): pass`),
so the sum across modes comes from spec §4.3. -/
noncomputable def frf_multi (modes : List (Mat2 ℂ × ℂ)) (f : List ℝ)
    (iout iin : Fin 2) : List ℂ :=
  f.map (fun fk =>
    (modes.map (fun m => sdofTerm (Mat2.entry m.1 iout iin) m.2 fk)).sum)

/-- Elementwise sum of two complex sequences. -/
def listAdd (xs ys : List ℂ) : List ℂ := List.zipWith (· + ·) xs ys

theorem map_add_zipWith (f : List ℝ) (g h : ℝ → ℂ) :
    f.map (fun x => g x + h x) = List.zipWith (· + ·) (f.map g) (f.map h) := by
  induction f with
  | nil => rfl
  | cons x xs ih =>
    rw [List.map_cons, List.map_cons, List.map_cons,
      List.zipWith_cons_cons, ih]

theorem map_const_replicate (f : List ℝ) (c : ℂ) :
    f.map (fun _ => c) = List.replicate f.length c := by
  induction f with
  | nil => rfl
  | cons x xs ih => simp [ih, List.replicate_succ]

/-- C5. `frf_build_sdof` returns a sequence of the same length as the sweep,
whose `k`-th entry is exactly `a/(i·f_k - r) + conj(a)/(i·f_k - conj(r))`. -/
theorem frf_build_sdof_spec (a r : ℂ) (f : List ℝ) :
    (frf_build_sdof a r f).length = f.length ∧
    ∀ (k : ℕ) (hk : k < f.length),
      (frf_build_sdof a r f).get ⟨k, by simpa [frf_build_sdof] using hk⟩ =
        a / (Complex.I * (f.get ⟨k, hk⟩ : ℝ) - r) +
        (starRingEnd ℂ) a /
          (Complex.I * (f.get ⟨k, hk⟩ : ℝ) - (starRingEnd ℂ) r) := by
  constructor
  · simp [frf_build_sdof]
  · intro k hk
    simp [frf_build_sdof, sdofTerm]

/-- Witness for C5 at `a = 1`, `r = 2`, `f = [3]`, `k = 0`. -/
theorem frf_build_sdof_spec_witness :
    0 < ([(3 : ℝ)] : List ℝ).length ∧
    (frf_build_sdof 1 2 [(3 : ℝ)]).get ⟨0, by norm_num [frf_build_sdof]⟩ =
      1 / (Complex.I * ((3 : ℝ) : ℂ) - 2) +
      (starRingEnd ℂ) 1 / (Complex.I * ((3 : ℝ) : ℂ) - (starRingEnd ℂ) 2) :=
  ⟨by norm_num, by
    have h := (frf_build_sdof_spec 1 2 [(3 : ℝ)]).2 0 (by norm_num)
    simpa using h⟩

/-- C6. Superposition: the multi-mode FRF is the elementwise sum of the
single-mode FRFs built from the same residues, poles, sweep and DOF pair. -/
theorem frf_superposition (modes : List (Mat2 ℂ × ℂ)) (f : List ℝ)
    (iout iin : Fin 2) :
    frf_multi modes f iout iin =
      modes.foldr (fun m acc =>
        listAdd (frf_build_sdof (Mat2.entry m.1 iout iin) m.2 f) acc)
        (List.replicate f.length (0 : ℂ)) := by
  induction modes with
  | nil =>
    simp only [frf_multi, List.map_nil, List.sum_nil, List.foldr_nil]
    exact map_const_replicate f 0
  | cons m ms ih =>
    simp only [List.foldr_cons, ← ih]
    unfold frf_multi frf_build_sdof listAdd
    rw [← map_add_zipWith]
    simp only [List.map_cons, List.sum_cons]

/-- C7. Conjugate symmetry of the pole-residue FRF: `H(-f) = conj (H f)`
for every residue, pole and real frequency, both pointwise and along a
negated sweep. -/
theorem frf_conjugate_symmetry :
    (∀ (a r : ℂ) (fk : ℝ),
      sdofTerm a r (-fk) = (starRingEnd ℂ) (sdofTerm a r fk)) ∧
    (∀ (a r : ℂ) (f : List ℝ),
      frf_build_sdof a r (f.map (fun x => -x)) =
        (frf_build_sdof a r f).map (starRingEnd ℂ)) := by
  have hpt : ∀ (a r : ℂ) (fk : ℝ),
      sdofTerm a r (-fk) = (starRingEnd ℂ) (sdofTerm a r fk) := by
    intro a r fk
    unfold sdofTerm
    simp only [map_add, map_div₀, map_sub, map_mul, Complex.conj_I,
      Complex.conj_conj, Complex.conj_ofReal, Complex.ofReal_neg]
    ring
  refine ⟨hpt, fun a r f => ?_⟩
  unfold frf_build_sdof
  rw [List.map_map, List.map_map]
  exact List.map_congr_left (fun x _ => hpt a r x)

theorem residueA_entry_symm (q : ℂ) (v : ℝ × ℝ) (i j : Fin 2) :
    Mat2.entry (residueA q v) i j = Mat2.entry (residueA q v) j i := by
  fin_cases i <;> fin_cases j <;>
    simp [residueA, outerOf, Mat2.smul, Mat2.entry, mul_comm]

/-- C10. Each residue matrix `A[mode] = qr·outer(v, v)` is symmetric, so the
synthesized FRF is reciprocal: swapping the output/input DOF pair leaves the
multi-mode FRF unchanged. -/
theorem frf_reciprocity :
    (∀ (q : ℂ) (v : ℝ × ℝ) (i j : Fin 2),
      Mat2.entry (residueA q v) i j = Mat2.entry (residueA q v) j i) ∧
    (∀ (ms : List (ℂ × (ℝ × ℝ) × ℂ)) (f : List ℝ) (iout iin : Fin 2),
      frf_multi (ms.map (fun m => (residueA m.1 m.2.1, m.2.2))) f iout iin =
        frf_multi (ms.map (fun m => (residueA m.1 m.2.1, m.2.2))) f iin iout)
    := by
  refine ⟨residueA_entry_symm, fun ms f iout iin => ?_⟩
  unfold frf_multi
  refine List.map_congr_left (fun fk _ => ?_)
  congr 1
  rw [List.map_map, List.map_map]
  refine List.map_congr_left (fun m _ => ?_)
  simp only [Function.comp_apply]
  rw [residueA_entry_symm]

/-! ## Magnitude to decibels (notebook cell 11)

`np.log10` on a negative float yields NaN and on zero yields `-inf`; both
special values are modelled explicitly. -/

/-- A real number, negative infinity, or NaN — the values `np.log10` can
produce on a real input. -/
inductive NpFloat where
  | val (x : ℝ)
  | negInf
  | nan

/-- `np.log10`: base-10 logarithm on positive reals, `-inf` at zero, NaN on
negative input. -/
noncomputable def np_log10 (x : ℝ) : NpFloat :=
  if 0 < x then NpFloat.val (Real.logb 10 x)
  else if x = 0 then NpFloat.negInf
  else NpFloat.nan

/-- `mag2db(x) = 20*np.log10(x)` — the source applies the scaling to the
logarithm, with no absolute value. -/
noncomputable def mag2db (x : ℝ) : NpFloat :=
  match np_log10 x with
  | NpFloat.val y => NpFloat.val (20 * y)
  | NpFloat.negInf => NpFloat.negInf
  | NpFloat.nan => NpFloat.nan

/-- C8 counterexample: at `x = -10` the code yields NaN, not
`20·log10(|x|) = 20`; the claimed identity `dB(x) = 20·log10(|x|)` fails for
negative inputs. -/
theorem mag2db_claim_counterexample :
    mag2db (-10) = NpFloat.nan ∧
    mag2db (-10) ≠ NpFloat.val (20 * Real.logb 10 |(-10 : ℝ)|) := by
  have h : mag2db (-10) = NpFloat.nan := by
    unfold mag2db np_log10
    norm_num
  exact ⟨h, by rw [h]; exact fun hc => NpFloat.noConfusion hc⟩

/-- C8 (amended). `mag2db x = 20·log10(x)` for positive `x` (agreeing with
`20·log10(|x|)` there), returns `-∞` at `x = 0`, and NaN for negative `x`. -/
theorem mag2db_spec :
    (∀ x : ℝ, 0 < x → mag2db x = NpFloat.val (20 * Real.logb 10 x)) ∧
    (∀ x : ℝ, 0 < x → mag2db x = NpFloat.val (20 * Real.logb 10 |x|)) ∧
    mag2db 0 = NpFloat.negInf ∧
    (∀ x : ℝ, x < 0 → mag2db x = NpFloat.nan) := by
  have hpos : ∀ x : ℝ, 0 < x → mag2db x = NpFloat.val (20 * Real.logb 10 x) := by
    intro x hx
    unfold mag2db np_log10
    rw [if_pos hx]
  refine ⟨hpos, fun x hx => ?_, ?_, fun x hx => ?_⟩
  · rw [hpos x hx, abs_of_pos hx]
  · unfold mag2db np_log10
    norm_num
  · unfold mag2db np_log10
    rw [if_neg (by linarith), if_neg (by linarith)]

/-- Witness for the amended C8 at `x = 10`, `x = 0`, `x = -1`. -/
theorem mag2db_spec_witness :
    (0 : ℝ) < 10 ∧ mag2db 10 = NpFloat.val (20 * Real.logb 10 10) ∧
    ((-1 : ℝ) < 0) ∧ mag2db (-1) = NpFloat.nan :=
  ⟨by norm_num, mag2db_spec.1 10 (by norm_num), by norm_num,
    mag2db_spec.2.2.2 (-1) (by norm_num)⟩
